import Mathlib

/-!
Verification of the intrascribe session-orchestration core.

This file gives a shallow embedding, in Lean 4, of the parts of the
intrascribe backend that the specification's claims are about:

* the speaker-segment coalescing passes
  (api_service/routers/transcriptions.py and
  app/audio_processing_service.py, both named
  _merge_adjacent_short_segments);
* the diarization post-processing of the diarization service
  (diarization_service/models.py);
* the batch / retranscription processing core
  (_process_batch_audio_file in api_service/routers/transcriptions.py);
* the v2 finalization task (finalize_session_task in
  api_service/routers/sessions_v2.py);
* the in-memory task store (api_service/routers/tasks_v2.py);
* the realtime STT buffering adapter
  (agent_service/transcribe_agent/agent.py);
* the Redis-backed ephemeral segment store (api_service/core/redis.py).

Times, durations and audio samples are modelled as rationals; machine
floats of the source are treated as exact arithmetic.  External effects
(database writes, RPCs, audio decoding) are modelled by explicit oracle
arguments: an oracle value describes the outcome the external world
produced, and the embedded function reproduces the control flow of the
source on that outcome.
-/

namespace Intrascribe

/-- Speaker-diarization segment, from shared/models.py (SpeakerSegment):
start and end times in seconds, a speaker label, and a stored duration
field (the source carries duration as a separate field rather than
recomputing end minus start). -/
structure SpeakerSeg where
  start_time : ℚ
  end_time : ℚ
  speaker_label : String
  duration : ℚ
deriving DecidableEq, Repr

/-! ## Segment coalescing

Two variants exist in the source.  The router variant
(api_service/routers/transcriptions.py, _merge_adjacent_short_segments)
performs the same-speaker merge loop followed by the sub-1-second drop.
The AudioProcessingService variant
(app/audio_processing_service.py, _merge_adjacent_short_segments)
performs the same-speaker merge loop, then a second pass merging
sub-2-second segments forward (and the trailing one backward), then the
sub-1-second drop. -/

/-- Merge loop shared by both variants: walk the list keeping a current
segment; when the next segment has the same speaker label and both the
current and the next are shorter than 5 seconds, fuse them (keeping the
current label and extending to the next end); otherwise emit the current
segment and continue from the next one. -/
def mergePassAGo (current : SpeakerSeg) : List SpeakerSeg → List SpeakerSeg
  | [] => [current]
  | seg :: rest =>
    if current.speaker_label = seg.speaker_label ∧
        current.end_time - current.start_time < 5 ∧
        seg.end_time - seg.start_time < 5 then
      mergePassAGo
        ⟨current.start_time, seg.end_time, current.speaker_label,
          seg.end_time - current.start_time⟩ rest
    else
      current :: mergePassAGo seg rest

/-- First coalescing pass (pass a): same-speaker merge of adjacent short
segments.  Empty input yields the empty list, matching the early return
of the source. -/
def mergePassA : List SpeakerSeg → List SpeakerSeg
  | [] => []
  | s :: rest => mergePassAGo s rest

/-- Final coalescing pass (pass c): keep only segments whose duration
(end minus start) is at least 1 second. -/
def dropShortSegments (segs : List SpeakerSeg) : List SpeakerSeg :=
  segs.filter (fun s => 1 ≤ s.end_time - s.start_time)

/-- Segment coalescing as performed by the batch/retranscription router
(api_service/routers/transcriptions.py): the same-speaker merge loop
followed directly by the sub-1-second drop.  This variant has no
second (sub-2-second forward merge) pass. -/
def mergeAdjacentShortSegments (segs : List SpeakerSeg) : List SpeakerSeg :=
  dropShortSegments (mergePassA segs)

/-- Second coalescing pass of the AudioProcessingService variant
(pass b), with the python accumulator list modelled most-recent-first
(python append is cons, python pop is uncons) and reversed on return:
a segment shorter than 2 seconds that has a successor is merged into
the successor, taking the successor label, and the successor is
skipped; a trailing segment shorter than 2 seconds is merged into the
previously emitted segment, keeping that segment's label. -/
def mergePassBGo (acc : List SpeakerSeg) : List SpeakerSeg → List SpeakerSeg
  | [] => acc.reverse
  | [cur] =>
    if cur.end_time - cur.start_time < 2 then
      match acc with
      | prev :: accRest =>
        (SpeakerSeg.mk prev.start_time cur.end_time prev.speaker_label
          (cur.end_time - prev.start_time) :: accRest).reverse
      | [] => [cur]
    else (cur :: acc).reverse
  | cur :: nxt :: rest =>
    if cur.end_time - cur.start_time < 2 then
      mergePassBGo
        (SpeakerSeg.mk cur.start_time nxt.end_time nxt.speaker_label
          (nxt.end_time - cur.start_time) :: acc) rest
    else mergePassBGo (cur :: acc) (nxt :: rest)

/-- Segment coalescing as performed by AudioProcessingService
(app/audio_processing_service.py): the same-speaker merge loop, then
the sub-2-second forward/backward merge pass, then the sub-1-second
drop. -/
def apsMergeAdjacentShortSegments (segs : List SpeakerSeg) : List SpeakerSeg :=
  dropShortSegments (mergePassBGo [] (mergePassA segs))

/-! ## Text cleaning

The batch pipeline strips bracketed meta tokens from STT output with the
python regular expression substitution removing every occurrence of a
left angle bracket, a bar, a run of non-bar characters, a bar and a
right angle bracket, and trims surrounding whitespace. -/

/-- Scan for the closing bar and angle bracket of a meta token: consume
characters that are not a bar; at the first bar, succeed exactly when a
right angle bracket follows, returning the remainder; fail at the end of
input.  This is the deterministic residue of the python pattern, whose
inner character class cannot cross a bar. -/
def takeMeta : List Char → Option (List Char)
  | [] => none
  | c :: rest =>
    if c = '|' then
      match rest with
      | '>' :: rest2 => some rest2
      | _ => none
    else takeMeta rest

theorem takeMeta_length :
    ∀ (l r : List Char), takeMeta l = some r → r.length ≤ l.length := by
  intro l
  induction l with
  | nil => intro r h; simp [takeMeta] at h
  | cons c rest ih =>
    intro r h
    simp only [takeMeta] at h
    split at h
    · split at h
      · cases h
        simp
        omega
      · cases h
    · have := ih r h
      simp
      omega

/-- Remove every meta token, scanning left to right exactly as the
python substitution does: at a left angle bracket followed by a bar, try
to complete a token and drop it; otherwise keep the character and resume
scanning at the next position. -/
def stripMeta : List Char → List Char
  | [] => []
  | [c] => [c]
  | c :: d :: rest =>
    if c = '<' ∧ d = '|' then
      match ht : takeMeta rest with
      | some rest2 => stripMeta rest2
      | none => c :: stripMeta (d :: rest)
    else c :: stripMeta (d :: rest)
termination_by l => l.length
decreasing_by
  · have := takeMeta_length rest rest2 ht
    simp
    omega
  · simp
  · simp

/-- Whitespace as trimmed by the python strip call (the characters that
occur in the data of this system). -/
def isWsChar (c : Char) : Bool :=
  c == ' ' || c == '\t' || c == '\n' || c == '\r'

/-- Trim whitespace from both ends, the python strip. -/
def trimChars (s : List Char) : List Char :=
  ((s.dropWhile isWsChar).reverse.dropWhile isWsChar).reverse

/-- The literal punctuation list of the batch pipeline; each entry is a
single character. -/
def punctuationOnly : List (List Char) :=
  [['.'], ['。'], [','], ['，'], ['?'], ['？'], ['!'], ['！']]

/-- Result shape of the STT RPC (shared/models.py
TranscriptionResponse), restricted to the fields the batch pipeline
reads. -/
structure SttResult where
  success : Bool
  text : List Char
  confidence_score : ℚ
deriving Repr, DecidableEq

/-- The cleaned text computed by the batch pipeline: trim, strip meta
tokens, trim again. -/
def cleanText (t : List Char) : List Char := trimChars (stripMeta (trimChars t))

/-- Decision of the batch pipeline whether an STT result contributes a
segment: the RPC must have succeeded with non-whitespace text, and the
cleaned text must have length strictly greater than one and not be one
of the listed punctuation strings (every listed string has length one,
so the list test is subsumed by the length test); returns the cleaned
text that is retained. -/
def keepText (r : SttResult) : Option (List Char) :=
  if r.success = true ∧ trimChars r.text ≠ [] then
    if 1 < (cleanText r.text).length ∧ ¬ cleanText r.text ∈ punctuationOnly then
      some (cleanText r.text)
    else none
  else none

/-! ## Silence detection

The extraction helper computes the square root of the mean of the
squared samples and skips the slice when that is below 0.01.  For a
nonempty slice of rationals this comparison is equivalent to comparing
the sum of squares times 10000 against the length, which avoids the
irrational square root.  For the empty slice the python mean is NaN and
the comparison is false, which the inequality below also yields. -/

/-- Sum of squared samples. -/
def sumSquares (xs : List ℚ) : ℚ := (xs.map fun x => x * x).sum

/-- Root-mean-square energy below 0.01, in squared form. -/
def isSilentSlice (xs : List ℚ) : Bool :=
  decide (sumSquares xs * 10000 < (xs.length : ℚ))

/-! ## Batch / retranscription processing core -/

/-- Emitted transcription segment of the batch pipeline. -/
structure TransSeg where
  index : ℕ
  speaker : String
  start_time : ℚ
  end_time : ℚ
  text : List Char
  confidence_score : ℚ
  is_final : Bool
deriving Repr, DecidableEq

/-- Outcome the external world produces for the i-th speaker segment:
the decoded PCM slice (none when extraction raised) and the STT RPC
result. -/
structure SegmentOracle where
  slice : Option (List ℚ)
  stt : SttResult

/-- The per-segment loop of the batch pipeline: for each speaker segment
in order, skip it when its slice is unavailable, when the slice is
silent, or when the STT result is rejected; otherwise emit a segment
whose index is the number of segments emitted so far, carrying the
speaker label and time bounds of the speaker segment and the cleaned
text.  The accumulator holds emitted segments most recent first. -/
def processSegmentsGo (orc : ℕ → SegmentOracle) :
    List SpeakerSeg → ℕ → List TransSeg → List TransSeg
  | [], _, acc => acc.reverse
  | seg :: rest, i, acc =>
    match (orc i).slice with
    | none => processSegmentsGo orc rest (i + 1) acc
    | some xs =>
      if isSilentSlice xs then processSegmentsGo orc rest (i + 1) acc
      else
        match keepText (orc i).stt with
        | none => processSegmentsGo orc rest (i + 1) acc
        | some cleaned =>
          processSegmentsGo orc rest (i + 1)
            (⟨acc.length, seg.speaker_label, seg.start_time, seg.end_time, cleaned,
              (orc i).stt.confidence_score, true⟩ :: acc)

/-- The per-segment loop started on an empty accumulator at position
zero. -/
def processSegments (orc : ℕ → SegmentOracle) (segs : List SpeakerSeg) : List TransSeg :=
  processSegmentsGo orc segs 0 []

/-- The kept inputs of the loop in order: the speaker segment, the
cleaned text and the confidence of every position that survives all
three skips. -/
def keptOfSegs (orc : ℕ → SegmentOracle) :
    List SpeakerSeg → ℕ → List (SpeakerSeg × List Char × ℚ)
  | [], _ => []
  | seg :: rest, i =>
    match (orc i).slice with
    | none => keptOfSegs orc rest (i + 1)
    | some xs =>
      if isSilentSlice xs then keptOfSegs orc rest (i + 1)
      else
        match keepText (orc i).stt with
        | none => keptOfSegs orc rest (i + 1)
        | some cleaned => (seg, cleaned, (orc i).stt.confidence_score) :: keptOfSegs orc rest (i + 1)

/-- Diarization RPC response shape as consumed by the batch pipeline. -/
structure DiarizationResult where
  success : Bool
  segments : List SpeakerSeg
  speaker_count : ℕ
deriving Repr, DecidableEq

/-- The single whole-audio segment the batch pipeline synthesizes when
diarization fails or returns no segments. -/
def fallbackSegment (durationSeconds : ℚ) : SpeakerSeg :=
  ⟨0, durationSeconds, "Speaker 1", durationSeconds⟩

/-- Speaker segments the batch pipeline processes: the synthesized
fallback when the diarization RPC reports failure or an empty segment
list, otherwise the coalesced diarization segments.  The fallback is
not passed through the coalescing function. -/
def chooseSpeakerSegments (durationSeconds : ℚ) (d : DiarizationResult) : List SpeakerSeg :=
  if d.success = false ∨ d.segments = [] then [fallbackSegment durationSeconds]
  else mergeAdjacentShortSegments d.segments

/-- Segments emitted by one retranscription run, as a function of the
measured duration, the diarization outcome and the per-segment
oracle. -/
def retranscriptionSegments (durationSeconds : ℚ) (d : DiarizationResult)
    (orc : ℕ → SegmentOracle) : List TransSeg :=
  processSegments orc (chooseSpeakerSegments durationSeconds d)

/-- Fields of the success payload that the batch pipeline returns and
the background task copies into the task record. -/
structure RetransResult where
  transcription_id : ℕ
  duration_seconds : ℚ
  total_segments : ℕ
  speaker_count : ℕ
deriving Repr, DecidableEq

/-- Success payload of the batch pipeline: the segment count is the
number of emitted segments and the speaker count is the literal one of
the source. -/
def batchSuccessResult (tid : ℕ) (finalDuration : ℚ) (emitted : List TransSeg) : RetransResult :=
  ⟨tid, finalDuration, emitted.length, 1⟩

/-- Number of distinct speaker labels among emitted segments. -/
def distinctSpeakerCount (emitted : List TransSeg) : ℕ :=
  (emitted.map fun s => s.speaker).dedup.length

/-! ## Diarization service post-processing
(diarization_service/models.py) -/

/-- One step of the overlap-removal loop: scan the cleaned list for the
first segment overlapping the incoming one; replace it when the
incoming segment has the larger stored duration, drop the incoming one
otherwise; append at the end when nothing overlaps. -/
def insertCleaned : List SpeakerSeg → SpeakerSeg → List SpeakerSeg
  | [], cur => [cur]
  | e :: rest, cur =>
    if cur.start_time < e.end_time ∧ e.start_time < cur.end_time then
      if e.duration < cur.duration then cur :: rest else e :: rest
    else e :: insertCleaned rest cur

/-- Comparison by segment start used by the stable sort of the
service. -/
def startLe (a b : SpeakerSeg) : Prop := a.start_time ≤ b.start_time

instance : DecidableRel startLe := fun a b =>
  inferInstanceAs (Decidable (a.start_time ≤ b.start_time))

instance : IsTotal SpeakerSeg startLe := ⟨fun a b => le_total a.start_time b.start_time⟩

instance : IsTrans SpeakerSeg startLe := ⟨fun _ _ _ h1 h2 => le_trans h1 h2⟩

/-- Overlap removal of the diarization service: sort by start time and
fold the scan step over the sorted list. -/
def removeOverlappingSegments (segs : List SpeakerSeg) : List SpeakerSeg :=
  (segs.insertionSort startLe).foldl insertCleaned []

/-- Configured minimum segment duration (shared/config.py). -/
def minSegmentDuration : ℚ := 1

/-- Diarization service pipeline on the raw model turns, each a start,
end and label triple: build segments whose stored duration is end minus
start, drop turns shorter than the configured minimum, remove
overlaps. -/
def serviceDiarize (turns : List (ℚ × ℚ × String)) : List SpeakerSeg :=
  removeOverlappingSegments
    ((turns.map fun t => SpeakerSeg.mk t.1 t.2.1 t.2.2 (t.2.1 - t.1)).filter
      fun s => !decide (s.duration < minSegmentDuration))

/-! ## Task store (api_service/routers/tasks_v2.py) -/

/-- In-memory task record; statuses are the raw strings of the
source. -/
structure TaskRecord where
  status : String
  progress : Option (String × ℕ)
  result : Option RetransResult
  errorMsg : Option String
  updated_at : ℕ
deriving Repr, DecidableEq

/-- The in-memory task store, a map from task id to record. -/
def TaskStore : Type := String → Option TaskRecord

/-- The update helper of the source: build a fresh record from the
arguments and store it under the task id, unconditionally replacing any
existing record. -/
def updateTaskStatus (store : TaskStore) (tid : String) (status : String)
    (progress : Option (String × ℕ)) (result : Option RetransResult)
    (errorMsg : Option String) (now : ℕ) : TaskStore :=
  fun t => if t = tid then some ⟨status, progress, result, errorMsg, now⟩ else store t

/-- The cancel endpoint: unconditionally writes a cancelled record for
the task id. -/
def cancelTask (store : TaskStore) (tid : String) (now : ℕ) : TaskStore :=
  updateTaskStatus store tid "cancelled" none none (some "Task cancelled by user") now

/-- The terminal statuses of the specification. -/
def isTerminalStatus (s : String) : Bool :=
  s == "success" || s == "failed" || s == "cancelled"

/-- Age within the simulated ten-second cycle, the python float modulus
of the wall-clock time. -/
def taskAge (now : ℚ) : ℚ := now - 10 * (⌊now / 10⌋ : ℚ)

/-- Simulated status, step and percentage for a task id that is absent
from the store, as a function of the cycle age. -/
def simulatedStatus (age : ℚ) : String × String × ℕ :=
  if age < 2 then ("pending", "initializing", 10)
  else if age < 5 then ("started", "processing", 50)
  else ("success", "completed", 100)

/-- Mock result attached to a simulated success reply. -/
structure MockFinalizeResult where
  transcription_saved : Bool
  segments_processed : ℕ
  total_duration_seconds : ℕ
deriving Repr, DecidableEq

/-- The literal mock payload of the source. -/
def mockFinalizeResult : MockFinalizeResult := ⟨true, 15, 120⟩

/-- Reply of the task status query. -/
structure TaskQueryReply where
  success : Bool
  status : String
  progress : Option (String × ℕ)
  mockResult : Option MockFinalizeResult
  storedResult : Option RetransResult
  errorMsg : Option String
deriving Repr, DecidableEq

/-- The task status query: the literal string undefined is answered
with an error reply; an id absent from the store is answered with a
simulated reply derived from the wall clock, carrying the mock result
exactly on simulated success; a stored record is returned as is. -/
def getTaskStatusImpl (store : TaskStore) (tid : String) (now : ℚ) : TaskQueryReply :=
  if tid = "undefined" then
    ⟨false, "error", none, none, none,
      some "Task ID is undefined - check client implementation"⟩
  else
    match store tid with
    | none =>
      let s := simulatedStatus (taskAge now)
      ⟨true, s.1, some s.2,
        if s.1 = "success" then some mockFinalizeResult else none, none, none⟩
    | some r => ⟨true, r.status, r.progress, none, r.result, r.errorMsg⟩

/-! ## Realtime ingest adapter (agent_service/transcribe_agent/agent.py)

The buffer is a byte array extended with two bytes per 16-bit sample;
the threshold constant of the source is 24000 times 2.  When the buffer
reaches the threshold it is flushed: the samples are resampled to 24000
hertz when the observed rate differs (the source falls back to the
original rate only when the resampling library is not importable, which
is modelled as available). -/

/-- Canonical sample rate of the adapter. -/
def targetSampleRate : ℕ := 24000

/-- The literal buffer threshold of the source, in bytes. -/
def sttBufferThreshold : ℕ := 24000 * 2

/-- A flush: the sample rate used for the STT request and the number of
buffered samples flushed. -/
structure FlushRequest where
  sampleRateUsed : ℕ
  samples : ℕ
deriving Repr, DecidableEq

/-- One recognition step: extend the buffer by two bytes per incoming
sample; when the threshold is reached, clear the buffer and issue a
request at the target rate (resampling exactly when the observed rate
differs); otherwise keep accumulating.  Returns the new buffer length
in bytes and the request, if any. -/
def recognizeStep (bufferBytes frameSamples sampleRate : ℕ) : ℕ × Option FlushRequest :=
  let b := bufferBytes + 2 * frameSamples
  if sttBufferThreshold ≤ b then
    (0, some ⟨if sampleRate = targetSampleRate then sampleRate else targetSampleRate, b / 2⟩)
  else (b, none)

/-! ## Ephemeral segment store (api_service/core/redis.py) -/

/-- A stored segment: the payload plus the server-assigned timestamp
attached at write time. -/
structure StoredSeg (α : Type) where
  payload : α
  timestamp : ℚ
deriving Repr, DecidableEq

/-- State of one session transcription key: the list entries newest
first, and the remaining time to live of the key. -/
structure TransListState (α : Type) where
  items : List (StoredSeg α)
  ttlSeconds : Option ℕ
deriving Repr, DecidableEq

/-- Store a transcription segment: attach the timestamp, push at the
head of the list, and reset the expiration to 24 hours. -/
def storeTranscriptionSegment (st : TransListState α) (seg : α) (now : ℚ) : TransListState α :=
  { items := ⟨seg, now⟩ :: st.items, ttlSeconds := some 86400 }

/-- Read all segments of a session: the whole list, reversed into
chronological order. -/
def getSessionTranscriptions (st : TransListState α) : List (StoredSeg α) :=
  st.items.reverse

/-- Clear the transcription data of a session: delete the key. -/
def clearSessionTranscriptions (_ : TransListState α) : TransListState α :=
  { items := [], ttlSeconds := none }

/-- Store a sequence of segments, each with its own write time. -/
def storeAllSegments (st : TransListState α) (ps : List (α × ℚ)) : TransListState α :=
  ps.foldl (fun s p => storeTranscriptionSegment s p.1 p.2) st

/-! ## Finalization task (api_service/routers/sessions_v2.py)

The task reads the two Redis lists, processes audio (failures are
caught and logged), saves the combined transcript when there is
non-blank text (a failure here raises out of the pipeline and is
swallowed only by the outermost handler, which returns without touching
the session), updates the session status to completed (a failure here
is a silent no-op because the repository update returns none instead of
raising), best-effort updates the stored duration, and clears the two
lists.  The Redis manager of the API service has no audio-list
accessors; following the specification of the audio key, the audio list
is modelled as state read and cleared with the same contract as the
transcription list. -/

/-- Session status enumeration (shared/models.py). -/
inductive SessionStatus
  | created | recording | paused | processing | completed | cancelled | archived
deriving DecidableEq, Repr

/-- Transcription segment as read back from Redis by the finalize
task. -/
structure RedisSeg where
  text : List Char
  speaker : String
  is_final : Bool
deriving Repr, DecidableEq

/-- Outcomes of the external calls the finalize task makes: whether the
session row was found for this owner, the measured duration when audio
processing succeeded (none models both a caught exception and a
reported failure), whether the transcript insert succeeded (when false
the insert raises), whether the status update returned a row, and
whether the best-effort duration update succeeded. -/
structure FinalizeEnv where
  sessionFound : Bool
  audioOutcome : Option ℚ
  saveOk : Bool
  updateOk : Bool
  durUpdateOk : Bool
deriving Repr, DecidableEq

/-- Observable state the finalize task acts on. -/
structure FinalizeState where
  status : SessionStatus
  redisTrans : List RedisSeg
  redisAudio : List ℕ
  transcriptRows : ℕ
  audioRows : ℕ
  durationSeconds : Option ℕ
deriving Repr, DecidableEq

/-- The v2 finalize task, step by step from the source: return
unchanged when the session is not found; insert an audio row exactly
when the audio list is nonempty and processing succeeded; when the
transcription list has segments with non-blank text, insert a
transcript row — a failing insert raises past the status update, so the
task returns with the session status untouched and the lists not
cleared; otherwise set the status to completed when the repository
update succeeds, write the truncated duration when it is positive and
the best-effort update succeeds, and clear whichever lists were
nonempty. -/
def finalizeSessionTask (env : FinalizeEnv) (st : FinalizeState) : FinalizeState :=
  if env.sessionFound = false then st
  else
    let trans := st.redisTrans
    let audio := st.redisAudio
    let stA :=
      if audio ≠ [] then
        match env.audioOutcome with
        | some _ => { st with audioRows := st.audioRows + 1 }
        | none => st
      else st
    let totalDuration : ℚ := if audio ≠ [] then env.audioOutcome.getD 0 else 0
    let textParts := (trans.map fun s => trimChars s.text).filter fun t => t ≠ []
    if (trans ≠ [] ∧ textParts ≠ []) ∧ env.saveOk = false then stA
    else
      let stB :=
        if trans ≠ [] ∧ textParts ≠ [] then
          { stA with transcriptRows := stA.transcriptRows + 1 }
        else stA
      let stC := if env.updateOk then { stB with status := .completed } else stB
      let stD :=
        if 0 < totalDuration ∧ env.durUpdateOk then
          { stC with durationSeconds := some (⌊totalDuration⌋).toNat }
        else stC
      let stE := if trans ≠ [] then { stD with redisTrans := [] } else stD
      if audio ≠ [] then { stE with redisAudio := [] } else stE

/-! ## Helper lemmas -/

/-- Reading after a sequence of stores appends the stored segments, in
store order, after whatever was already readable. -/
theorem storeAll_get {α : Type} (ps : List (α × ℚ)) :
    ∀ st : TransListState α,
      getSessionTranscriptions (storeAllSegments st ps)
        = getSessionTranscriptions st ++ ps.map fun p => ⟨p.1, p.2⟩ := by
  induction ps with
  | nil => intro st; simp [storeAllSegments, storeTranscriptionSegment]
  | cons p ps ih =>
    intro st
    simp only [storeAllSegments, List.foldl_cons] at ih ⊢
    rw [ih]
    simp [storeTranscriptionSegment, getSessionTranscriptions]

/-- The empty task store. -/
def taskStoreEmpty : TaskStore := fun _ => none

end Intrascribe

namespace Intrascribe

/-- C9: for every session state and every sequence of appends to the
transcription list, a read returns the previously readable segments
followed by the appended ones in append order (the store pushes newest
first and the read reverses); each append writes the head of the list
and resets the time to live to 24 hours; a read after clear returns the
empty list, and clear is idempotent. -/
theorem redis_transcription_list_contract (α : Type) (st : TransListState α)
    (ps : List (α × ℚ)) (seg : α) (now : ℚ) :
    getSessionTranscriptions (storeAllSegments st ps)
      = getSessionTranscriptions st ++ ps.map (fun p => ⟨p.1, p.2⟩) ∧
    storeTranscriptionSegment st seg now
      = { items := ⟨seg, now⟩ :: st.items, ttlSeconds := some 86400 } ∧
    getSessionTranscriptions (clearSessionTranscriptions st) = ([] : List (StoredSeg α)) ∧
    clearSessionTranscriptions (clearSessionTranscriptions st) = clearSessionTranscriptions st := by
  refine ⟨storeAll_get ps st, rfl, ?_, rfl⟩
  simp [getSessionTranscriptions, clearSessionTranscriptions]

/-- C3 counterexample: a task stored in the terminal status success is
moved to cancelled by a later cancel request, so a terminal state is
not immutable. -/
theorem task_success_then_cancelled :
    (isTerminalStatus "success" = true) ∧
    ((updateTaskStatus taskStoreEmpty "t1" "success" (some ("completed", 100)) none none 0)
        "t1").map TaskRecord.status = some "success" ∧
    ((cancelTask (updateTaskStatus taskStoreEmpty "t1" "success"
        (some ("completed", 100)) none none 0) "t1" 1) "t1").map TaskRecord.status
      = some "cancelled" ∧
    ("cancelled" : String) ≠ "success" := by
  refine ⟨rfl, ?_, ?_, by decide⟩
  · simp [updateTaskStatus, taskStoreEmpty]
  · simp [cancelTask, updateTaskStatus, taskStoreEmpty]

/-- C3 (amended): the task store enforces no lifecycle: the update
helper unconditionally replaces whatever record a task id holds —
including a record in a terminal status — with a fresh record carrying
the requested status, and the cancel endpoint unconditionally writes a
cancelled record; the pending, started and terminal statuses are an
intention of the callers, not an invariant of the store. -/
theorem task_store_last_write_wins (store : TaskStore) (tid status : String)
    (progress : Option (String × ℕ)) (result : Option RetransResult)
    (errorMsg : Option String) (now : ℕ) :
    (updateTaskStatus store tid status progress result errorMsg now) tid
      = some ⟨status, progress, result, errorMsg, now⟩ ∧
    (cancelTask store tid now) tid
      = some ⟨"cancelled", none, none, some "Task cancelled by user", now⟩ := by
  constructor
  · simp [updateTaskStatus]
  · simp [cancelTask, updateTaskStatus]

/-- C10: a status query for a task id that is absent from the store
(and is not the literal string undefined) does not report not-found: it
answers success with a status fabricated from the wall clock — the
ten-second cycle yields pending, then started, then success, the last
carrying the mock result — so the same unknown id queried at two
different times can receive two different statuses, as the concrete
times zero and six show. -/
theorem get_task_status_simulates_unknown (store : TaskStore) (tid : String) (now : ℚ)
    (habs : store tid = none) (hund : tid ≠ "undefined") :
    (getTaskStatusImpl store tid now).success = true ∧
    (getTaskStatusImpl store tid now).status = (simulatedStatus (taskAge now)).1 ∧
    ((getTaskStatusImpl store tid now).mockResult
      = if (simulatedStatus (taskAge now)).1 = "success" then some mockFinalizeResult else none) ∧
    (getTaskStatusImpl store tid 0).status = "pending" ∧
    (getTaskStatusImpl store tid 6).status = "success" ∧
    ("pending" : String) ≠ "success" := by
  have h0 : taskAge 0 = 0 := by norm_num [taskAge]
  have h6 : taskAge 6 = 6 := by norm_num [taskAge]
  refine ⟨?_, ?_, ?_, ?_, ?_, by decide⟩ <;>
    simp [getTaskStatusImpl, habs, hund, h0, h6, simulatedStatus] <;>
    norm_num

/-- C10 witness at a concrete unknown id and time. -/
theorem get_task_status_simulates_unknown_witness :
    (getTaskStatusImpl taskStoreEmpty "w10" 6).success = true ∧
    (getTaskStatusImpl taskStoreEmpty "w10" 6).status = (simulatedStatus (taskAge 6)).1 ∧
    ((getTaskStatusImpl taskStoreEmpty "w10" 6).mockResult
      = if (simulatedStatus (taskAge 6)).1 = "success" then some mockFinalizeResult else none) ∧
    (getTaskStatusImpl taskStoreEmpty "w10" 0).status = "pending" ∧
    (getTaskStatusImpl taskStoreEmpty "w10" 6).status = "success" ∧
    ("pending" : String) ≠ "success" :=
  get_task_status_simulates_unknown taskStoreEmpty "w10" 6 rfl (by decide)

/-- C8: the source threshold constant is 24000 times 2 equals 48000
bytes, which is one second of 16-bit audio at 24 kHz, not the two
seconds (96000 bytes) stated by the specification and by the source's
own comment: a first half-second frame only accumulates, the second
half-second frame reaches 48000 bytes and flushes, and a flush issues
the request at 24000 hertz whether or not the observed rate differs
(resampling exactly when it does). -/
theorem stt_buffer_threshold_is_one_second :
    sttBufferThreshold = 48000 ∧
    2 * targetSampleRate * 2 = 96000 ∧
    sttBufferThreshold ≠ 2 * targetSampleRate * 2 ∧
    recognizeStep 0 12000 48000 = (24000, none) ∧
    recognizeStep 24000 12000 48000 = (0, some ⟨24000, 24000⟩) ∧
    (recognizeStep 0 24000 24000).2 = some ⟨24000, 24000⟩ := by
  refine ⟨rfl, rfl, by decide, ?_, ?_, ?_⟩ <;> decide

/-- C7 counterexample: a concrete retranscription run emitting two
segments with two distinct speaker labels still reports a speaker
count of one in its success payload, so the reported count is not the
number of distinct labels. -/
theorem speaker_count_not_distinct_labels :
    (2 : ℕ) ≠ 1 ∧
    distinctSpeakerCount
      (retranscriptionSegments 20
        ⟨true, [⟨0, 10, "S0", 10⟩, ⟨10, 20, "S1", 10⟩], 2⟩
        (fun _ => ⟨some [1], ⟨true, ['h', 'e', 'l', 'l', 'o'], 1⟩⟩)) = 2 ∧
    (batchSuccessResult 7 20
      (retranscriptionSegments 20
        ⟨true, [⟨0, 10, "S0", 10⟩, ⟨10, 20, "S1", 10⟩], 2⟩
        (fun _ => ⟨some [1], ⟨true, ['h', 'e', 'l', 'l', 'o'], 1⟩⟩))).speaker_count = 1 := by
  refine ⟨by decide, ?_, rfl⟩
  have hseg : chooseSpeakerSegments 20 ⟨true, [⟨0, 10, "S0", 10⟩, ⟨10, 20, "S1", 10⟩], 2⟩
      = [⟨0, 10, "S0", 10⟩, ⟨10, 20, "S1", 10⟩] := by
    norm_num [chooseSpeakerSegments, mergeAdjacentShortSegments, mergePassA, mergePassAGo,
      dropShortSegments, List.filter] <;> simp
  have hkeep : keepText ⟨true, ['h', 'e', 'l', 'l', 'o'], 1⟩ = some ['h', 'e', 'l', 'l', 'o'] := by
    simp +decide [keepText, cleanText, trimChars, stripMeta, takeMeta, isWsChar, punctuationOnly]
  have hsil : isSilentSlice [1] = false := by
    norm_num [isSilentSlice, sumSquares]
  unfold retranscriptionSegments
  rw [hseg]
  simp only [processSegments, processSegmentsGo, hsil, hkeep]
  decide

/-- C7 (amended): a successfully finished retranscription task stores a
result carrying the transcription id, the duration, the total segment
count — the length of the emitted list — and a speaker count that is
the constant one of the source, irrespective of how many distinct
speaker labels the emitted segments carry. -/
theorem retrans_task_result_fields (tid : ℕ) (fd dur : ℚ) (d : DiarizationResult)
    (orc : ℕ → SegmentOracle) :
    (batchSuccessResult tid fd (retranscriptionSegments dur d orc)).transcription_id = tid ∧
    (batchSuccessResult tid fd (retranscriptionSegments dur d orc)).duration_seconds = fd ∧
    (batchSuccessResult tid fd (retranscriptionSegments dur d orc)).total_segments
      = (retranscriptionSegments dur d orc).length ∧
    (batchSuccessResult tid fd (retranscriptionSegments dur d orc)).speaker_count = 1 :=
  ⟨rfl, rfl, rfl, rfl⟩

/-- C4: when the diarization RPC fails or returns no segments, the
batch pipeline synthesizes exactly one speaker segment spanning the
whole audio, labelled Speaker 1, bypasses coalescing, and — provided
the slice is loud enough and the STT result is retained — emits exactly
one transcription segment derived from that fallback segment. -/
theorem diarization_fallback_single_segment
    (dur : ℚ) (d : DiarizationResult) (orc : ℕ → SegmentOracle)
    (hfail : d.success = false ∨ d.segments = [])
    (xs : List ℚ) (hslice : (orc 0).slice = some xs) (hloud : isSilentSlice xs = false)
    (cleaned : List Char) (htext : keepText (orc 0).stt = some cleaned) :
    chooseSpeakerSegments dur d = [fallbackSegment dur] ∧
    retranscriptionSegments dur d orc
      = [⟨0, "Speaker 1", 0, dur, cleaned, (orc 0).stt.confidence_score, true⟩] := by
  have hchoose : chooseSpeakerSegments dur d = [fallbackSegment dur] := by
    unfold chooseSpeakerSegments
    rcases hfail with h | h <;> simp [h]
  refine ⟨hchoose, ?_⟩
  unfold retranscriptionSegments
  rw [hchoose]
  simp [processSegments, processSegmentsGo, hslice, hloud, htext, fallbackSegment]

/-- C4 witness at a concrete failed diarization and a concrete
oracle. -/
theorem diarization_fallback_single_segment_witness :
    chooseSpeakerSegments 30 ⟨false, [], 0⟩ = [fallbackSegment 30] ∧
    retranscriptionSegments 30 ⟨false, [], 0⟩
        (fun _ => ⟨some [1], ⟨true, ['h', 'i', ' ', 'y', 'o', 'u'], 1⟩⟩)
      = [⟨0, "Speaker 1", 0, 30, ['h', 'i', ' ', 'y', 'o', 'u'], 1, true⟩] :=
  diarization_fallback_single_segment 30 ⟨false, [], 0⟩
    (fun _ => ⟨some [1], ⟨true, ['h', 'i', ' ', 'y', 'o', 'u'], 1⟩⟩)
    (Or.inl rfl) [1] rfl
    (by norm_num [isSilentSlice, sumSquares])
    ['h', 'i', ' ', 'y', 'o', 'u']
    (by simp [keepText, cleanText, trimChars, stripMeta, takeMeta, isWsChar, punctuationOnly])

/-- C1 counterexample: on a found, owned session holding one non-blank
transcription segment, a failing transcript insert raises past the
status update; the task returns (and the endpoint reports success), but
the session is left in its prior status, not completed. -/
theorem finalize_save_failure_leaves_status :
    (finalizeSessionTask ⟨true, none, false, true, true⟩
        ⟨SessionStatus.recording, [⟨['h', 'i'], "Speaker 1", true⟩], [], 0, 0, none⟩).status
      = SessionStatus.recording ∧
    SessionStatus.recording ≠ SessionStatus.completed := by
  constructor
  · simp [finalizeSessionTask, trimChars, isWsChar]
  · decide

/-- C1 (amended): whenever the session is found and owned and the
transcript insert and the session status update both succeed, the v2
finalize task ends with the session status completed — for every prior
status, for empty or nonempty transcription and audio lists, and
whether audio processing succeeded or failed; a failing transcript
insert, however, aborts the task silently with the status
untouched. -/
theorem finalize_sets_completed (env : FinalizeEnv) (st : FinalizeState)
    (hf : env.sessionFound = true) (hs : env.saveOk = true) (hu : env.updateOk = true) :
    (finalizeSessionTask env st).status = SessionStatus.completed := by
  simp only [finalizeSessionTask, hf, hs, hu]
  norm_num
  split_ifs <;> rfl

/-- C2 counterexample: the coalescing function invoked by the
batch/retranscription router maps the example of the claim to the
single segment from 0.6 to 5 labelled B — the sub-0.6-second A segment
is dropped by the final pass instead of being merged forward — not to
the segment from 0 to 5 labelled B that the claimed second pass would
produce. -/
theorem router_coalescing_lacks_second_pass :
    mergeAdjacentShortSegments [⟨0, 6/10, "A", 6/10⟩, ⟨6/10, 5, "B", 44/10⟩]
      = [⟨6/10, 5, "B", 44/10⟩] ∧
    ([⟨6/10, 5, "B", 44/10⟩] : List SpeakerSeg) ≠ [⟨0, 5, "B", 5⟩] := by
  constructor
  · norm_num [mergeAdjacentShortSegments, mergePassA, mergePassAGo,
      dropShortSegments, List.filter]
  · intro h
    rw [List.cons.injEq, SpeakerSeg.mk.injEq] at h
    norm_num at h

/-- C2 (amended): two coalescing variants exist in the source. The
AudioProcessingService variant performs exactly the three passes in
order — same-speaker merge of segments both under 5 s, then forward
merge of sub-2-second segments taking the successor label with the
trailing one merging backward keeping the predecessor label, then the
sub-1-second drop — and maps the example input to the segment from 0 to
5 labelled B (the spec scenarios for same-speaker and trailing merges
also hold of it). The variant invoked by the batch/retranscription
router performs only the first and last passes, and maps the example
input to the segment from 0.6 to 5 labelled B. -/
theorem coalescing_two_variants (segs : List SpeakerSeg) :
    apsMergeAdjacentShortSegments segs
      = dropShortSegments (mergePassBGo [] (mergePassA segs)) ∧
    mergeAdjacentShortSegments segs = dropShortSegments (mergePassA segs) ∧
    apsMergeAdjacentShortSegments [⟨0, 6/10, "A", 6/10⟩, ⟨6/10, 5, "B", 44/10⟩]
      = [⟨0, 5, "B", 5⟩] ∧
    mergeAdjacentShortSegments [⟨0, 6/10, "A", 6/10⟩, ⟨6/10, 5, "B", 44/10⟩]
      = [⟨6/10, 5, "B", 44/10⟩] ∧
    apsMergeAdjacentShortSegments [⟨0, 3, "A", 3⟩, ⟨3, 4, "A", 1⟩, ⟨4, 7, "B", 3⟩]
      = [⟨0, 4, "A", 4⟩, ⟨4, 7, "B", 3⟩] ∧
    apsMergeAdjacentShortSegments [⟨0, 10, "A", 10⟩, ⟨10, 11, "A", 1⟩]
      = [⟨0, 11, "A", 11⟩] := by
  refine ⟨rfl, rfl, ?_, ?_, ?_, ?_⟩ <;>
    norm_num [apsMergeAdjacentShortSegments, mergeAdjacentShortSegments, mergePassA,
      mergePassAGo, mergePassBGo, dropShortSegments, List.filter]

/-! ## Characterization of the per-segment loop -/

/-- Emitted segment built from a position index and the kept data of a
speaker segment. -/
def mkTransSeg (p : ℕ × SpeakerSeg × List Char × ℚ) : TransSeg :=
  ⟨p.1, p.2.1.speaker_label, p.2.1.start_time, p.2.1.end_time, p.2.2.1, p.2.2.2, true⟩

/-- The loop equals the enumeration of the kept data appended after the
reversed accumulator, with indices starting at the accumulator
length. -/
theorem processSegmentsGo_spec (orc : ℕ → SegmentOracle) :
    ∀ (segs : List SpeakerSeg) (i : ℕ) (acc : List TransSeg),
      processSegmentsGo orc segs i acc
        = acc.reverse ++ (List.enumFrom acc.length (keptOfSegs orc segs i)).map mkTransSeg := by
  intro segs
  induction segs with
  | nil => intro i acc; simp [processSegmentsGo, keptOfSegs]
  | cons seg rest ih =>
    intro i acc
    simp only [processSegmentsGo, keptOfSegs]
    cases hsl : (orc i).slice with
    | none => simpa using ih (i + 1) acc
    | some xs =>
      by_cases hsil : isSilentSlice xs
      · simpa [hsil] using ih (i + 1) acc
      · cases hk : keepText (orc i).stt with
        | none => simpa [hsil] using ih (i + 1) acc
        | some cleaned =>
          simp only [hsil, if_neg, Bool.false_eq_true, ite_false]
          rw [ih (i + 1)
            (⟨acc.length, seg.speaker_label, seg.start_time, seg.end_time, cleaned,
              (orc i).stt.confidence_score, true⟩ :: acc)]
          simp [List.enumFrom, mkTransSeg]

/-- The speaker segments of the kept data form a sublist of the
processed speaker segments. -/
theorem keptOfSegs_fst_sublist (orc : ℕ → SegmentOracle) :
    ∀ (segs : List SpeakerSeg) (i : ℕ),
      ((keptOfSegs orc segs i).map fun p => p.1).Sublist segs := by
  intro segs
  induction segs with
  | nil => intro i; simp [keptOfSegs]
  | cons seg rest ih =>
    intro i
    simp only [keptOfSegs]
    cases (orc i).slice with
    | none => exact (ih (i + 1)).cons seg
    | some xs =>
      by_cases hsil : isSilentSlice xs
      · simpa [hsil] using (ih (i + 1)).cons seg
      · cases keepText (orc i).stt with
        | none => simpa [hsil] using (ih (i + 1)).cons seg
        | some cleaned => simpa [hsil] using (ih (i + 1)).cons₂ seg

/-- Enumeration keeps first components consecutive. -/
theorem enumFrom_fst_range (α : Type) :
    ∀ (l : List α) (n : ℕ), (List.enumFrom n l).map Prod.fst = List.range' n l.length := by
  intro l
  induction l with
  | nil => intro n; simp [List.enumFrom]
  | cons a l ih => intro n; simp [List.enumFrom, List.range', ih]

/-- Second components of an enumeration are members of the list. -/
theorem enumFrom_snd_mem (α : Type) :
    ∀ (l : List α) (n : ℕ) (p : ℕ × α), p ∈ List.enumFrom n l → p.2 ∈ l := by
  intro l
  induction l with
  | nil => intro n p hp; simp [List.enumFrom] at hp
  | cons a l ih =>
    intro n p hp
    rw [show List.enumFrom n (a :: l) = (n, a) :: List.enumFrom (n + 1) l from rfl] at hp
    rcases List.mem_cons.mp hp with h | h
    · subst h; simp
    · exact List.mem_cons_of_mem a (ih (n + 1) p h)

/-- A pairwise relation on a list lifts to second components of its
enumeration. -/
theorem pairwise_enumFrom_snd (α : Type) (R : α → α → Prop) :
    ∀ (l : List α) (n : ℕ), l.Pairwise R →
      (List.enumFrom n l).Pairwise fun p q => R p.2 q.2 := by
  intro l
  induction l with
  | nil => intro n _; simp [List.enumFrom]
  | cons a l ih =>
    intro n hl
    rw [List.pairwise_cons] at hl
    rw [show List.enumFrom n (a :: l) = (n, a) :: List.enumFrom (n + 1) l from rfl,
      List.pairwise_cons]
    exact ⟨fun q hq => hl.1 q.2 (enumFrom_snd_mem α l (n + 1) q hq), ih (n + 1) hl.2⟩

/-- C5 counterexample: a non-silent segment whose STT result is the
single character a — a result that is neither empty nor
punctuation-only — is nevertheless skipped and nothing is emitted,
because the source rejects every cleaned text of length at most
one. -/
theorem single_char_text_skipped :
    processSegments (fun _ => ⟨some [1], ⟨true, ['a'], 1⟩⟩) [⟨0, 5, "S", 5⟩] = [] ∧
    trimChars ['a'] ≠ [] ∧ ['a'] ∉ punctuationOnly := by
  have hsil : isSilentSlice [1] = false := by norm_num [isSilentSlice, sumSquares]
  have hkeep : keepText ⟨true, ['a'], 1⟩ = none := by
    simp +decide [keepText, cleanText, trimChars, stripMeta, takeMeta, isWsChar,
      punctuationOnly]
  refine ⟨?_, by decide, by decide⟩
  simp [processSegments, processSegmentsGo, hsil, hkeep]

/-- C5 (amended): the emitted list is exactly the enumeration of the
kept data: a segment is skipped when its slice is unavailable, when the
slice has root-mean-square energy below 0.01, or when the STT result is
rejected; the rejection rule is — after stripping bracketed meta tokens
and trimming — a cleaned text of length at most one or one of the
listed punctuation strings (this subsumes empty and single-character
punctuation-only results, but also skips any other single-character
text, while keeping longer punctuation-only strings); every kept
segment carries the cleaned text with its speaker label and time
bounds, and the emitted indices are consecutive positions from
zero. -/
theorem retrans_segment_processing (orc : ℕ → SegmentOracle) (segs : List SpeakerSeg) :
    processSegments orc segs
      = (List.enumFrom 0 (keptOfSegs orc segs 0)).map mkTransSeg ∧
    (processSegments orc segs).map TransSeg.index
      = List.range (processSegments orc segs).length ∧
    ∀ (r : SttResult) (c : List Char),
      keepText r = some c ↔
        (r.success = true ∧ trimChars r.text ≠ [] ∧ c = cleanText r.text ∧
          1 < (cleanText r.text).length ∧ cleanText r.text ∉ punctuationOnly) := by
  have hspec : processSegments orc segs
      = (List.enumFrom 0 (keptOfSegs orc segs 0)).map mkTransSeg := by
    simpa [processSegments] using processSegmentsGo_spec orc segs 0 []
  refine ⟨hspec, ?_, ?_⟩
  · rw [hspec]
    have hidx : ∀ p : ℕ × SpeakerSeg × List Char × ℚ, (mkTransSeg p).index = p.1 := by
      intro p; rfl
    rw [List.map_map]
    have : TransSeg.index ∘ mkTransSeg = Prod.fst := by
      funext p; exact hidx p
    rw [this, enumFrom_fst_range]
    simp [List.range_eq_range']
  · intro r c
    unfold keepText
    split
    · split
      · rename_i h1 h2
        simp only [Option.some.injEq]
        constructor
        · intro hc; exact ⟨h1.1, h1.2, hc.symm, h2.1, h2.2⟩
        · intro hc; exact hc.2.2.1.symm
      · rename_i h1 h2
        simp only [false_iff, reduceCtorEq]
        intro hc
        exact h2 ⟨hc.2.2.2.1, hc.2.2.2.2⟩
    · rename_i h1
      simp only [false_iff, reduceCtorEq]
      intro hc
      exact h1 ⟨hc.1, hc.2.1⟩

/-! ## Non-overlap invariants -/

/-- Consecutive segments are chained: every earlier segment ends no
later than every later one starts. -/
def chainedSegs (l : List SpeakerSeg) : Prop :=
  l.Pairwise fun a b => a.end_time ≤ b.start_time

/-- No two emitted transcription segments overlap. -/
def noTwoOverlap (l : List TransSeg) : Prop :=
  l.Pairwise fun a b => a.end_time ≤ b.start_time ∨ b.end_time ≤ a.start_time

/-- Members of the overlap-scan result come from the scanned list or
are the inserted segment. -/
theorem insertCleaned_mem :
    ∀ (cleaned : List SpeakerSeg) (cur y : SpeakerSeg),
      y ∈ insertCleaned cleaned cur → y ∈ cleaned ∨ y = cur := by
  intro cleaned
  induction cleaned with
  | nil =>
    intro cur y hy
    simp only [insertCleaned, List.mem_singleton] at hy
    exact Or.inr hy
  | cons e rest ih =>
    intro cur y hy
    simp only [insertCleaned] at hy
    split at hy
    · split at hy
      · rcases List.mem_cons.mp hy with h | h
        · exact Or.inr h
        · exact Or.inl (List.mem_cons_of_mem e h)
      · rcases List.mem_cons.mp hy with h | h
        · exact Or.inl (h ▸ List.mem_cons_self e rest)
        · exact Or.inl (List.mem_cons_of_mem e h)
    · rcases List.mem_cons.mp hy with h | h
      · exact Or.inl (h ▸ List.mem_cons_self e rest)
      · rcases ih cur y h with h2 | h2
        · exact Or.inl (List.mem_cons_of_mem e h2)
        · exact Or.inr h2

/-- The overlap scan preserves the chain when every scanned segment is
nondegenerate and starts no later than the nondegenerate inserted
segment: an overlap can then only occur at the final chained segment,
so both the replace and the skip outcome remain chained, and an
appended segment starts after every chained end. -/
theorem insertCleaned_chained :
    ∀ (cleaned : List SpeakerSeg) (cur : SpeakerSeg),
      chainedSegs cleaned →
      (∀ x ∈ cleaned, x.start_time < x.end_time) →
      cur.start_time < cur.end_time →
      (∀ x ∈ cleaned, x.start_time ≤ cur.start_time) →
      chainedSegs (insertCleaned cleaned cur) := by
  intro cleaned
  induction cleaned with
  | nil =>
    intro cur _ _ _ _
    simp [insertCleaned, chainedSegs]
  | cons e rest ih =>
    intro cur hch hnd hcur hle
    rw [chainedSegs, List.pairwise_cons] at hch
    simp only [insertCleaned]
    split
    · rename_i hov
      have hrest_empty : ∀ r ∈ rest, False := by
        intro r hr
        have h1 : e.end_time ≤ r.start_time := hch.1 r hr
        have h2 : r.start_time ≤ cur.start_time :=
          hle r (List.mem_cons_of_mem e hr)
        exact absurd hov.1 (not_lt.mpr (le_trans h1 h2))
      split
      · rw [chainedSegs, List.pairwise_cons]
        exact ⟨fun r hr => absurd hr (fun hr => hrest_empty r hr),
          hch.2⟩
      · rw [chainedSegs, List.pairwise_cons]
        exact ⟨hch.1, hch.2⟩
    · rename_i hov
      have hecur : e.end_time ≤ cur.start_time := by
        rcases not_and_or.mp hov with h | h
        · exact not_lt.mp h
        · exfalso
          have h1 : cur.end_time ≤ e.start_time := not_lt.mp h
          have h2 : e.start_time ≤ cur.start_time := hle e (List.mem_cons_self e rest)
          exact absurd hcur (not_lt.mpr (le_trans h1 h2))
      rw [chainedSegs, List.pairwise_cons]
      constructor
      · intro y hy
        rcases insertCleaned_mem rest cur y hy with h | h
        · exact hch.1 y h
        · exact h ▸ hecur
      · exact ih cur hch.2 (fun x hx => hnd x (List.mem_cons_of_mem e hx)) hcur
          (fun x hx => hle x (List.mem_cons_of_mem e hx))

/-- Folding the overlap scan over a start-sorted list of nondegenerate
segments yields a chained list whose members come from the initial
accumulator or the folded list. -/
theorem foldl_insertCleaned_chained :
    ∀ (pending cleaned : List SpeakerSeg),
      chainedSegs cleaned →
      (∀ x ∈ cleaned, x.start_time < x.end_time) →
      (∀ x ∈ pending, x.start_time < x.end_time) →
      pending.Pairwise startLe →
      (∀ x ∈ cleaned, ∀ p ∈ pending, x.start_time ≤ p.start_time) →
      chainedSegs (pending.foldl insertCleaned cleaned) ∧
      ∀ y ∈ pending.foldl insertCleaned cleaned, y ∈ cleaned ∨ y ∈ pending := by
  intro pending
  induction pending with
  | nil =>
    intro cleaned hch hnd _ _ _
    exact ⟨hch, fun y hy => Or.inl hy⟩
  | cons cur rest ih =>
    intro cleaned hch hnd hndp hsort hle
    rw [List.pairwise_cons] at hsort
    rw [List.foldl_cons]
    have hcur : cur.start_time < cur.end_time := hndp cur (List.mem_cons_self cur rest)
    have hle1 : ∀ x ∈ cleaned, x.start_time ≤ cur.start_time := fun x hx =>
      hle x hx cur (List.mem_cons_self cur rest)
    have hch2 : chainedSegs (insertCleaned cleaned cur) :=
      insertCleaned_chained cleaned cur hch hnd hcur hle1
    have hnd2 : ∀ x ∈ insertCleaned cleaned cur, x.start_time < x.end_time := by
      intro x hx
      rcases insertCleaned_mem cleaned cur x hx with h | h
      · exact hnd x h
      · exact h ▸ hcur
    have hle2 : ∀ x ∈ insertCleaned cleaned cur, ∀ p ∈ rest, x.start_time ≤ p.start_time := by
      intro x hx p hp
      rcases insertCleaned_mem cleaned cur x hx with h | h
      · exact hle x h p (List.mem_cons_of_mem cur hp)
      · exact h ▸ hsort.1 p hp
    obtain ⟨h1, h2⟩ := ih (insertCleaned cleaned cur) hch2 hnd2
      (fun x hx => hndp x (List.mem_cons_of_mem cur hx)) hsort.2 hle2
    refine ⟨h1, fun y hy => ?_⟩
    rcases h2 y hy with h | h
    · rcases insertCleaned_mem cleaned cur y h with h3 | h3
      · exact Or.inl h3
      · exact Or.inr (h3 ▸ List.mem_cons_self cur rest)
    · exact Or.inr (List.mem_cons_of_mem cur h)

/-- Overlap removal of the diarization service returns a chained list
drawn from its input, for nondegenerate input segments. -/
theorem removeOverlapping_chained (segs : List SpeakerSeg)
    (hnd : ∀ x ∈ segs, x.start_time < x.end_time) :
    chainedSegs (removeOverlappingSegments segs) ∧
    ∀ y ∈ removeOverlappingSegments segs, y ∈ segs := by
  unfold removeOverlappingSegments
  have hperm := List.perm_insertionSort startLe segs
  have hsort : (segs.insertionSort startLe).Pairwise startLe :=
    List.sorted_insertionSort startLe segs
  have hnd2 : ∀ x ∈ segs.insertionSort startLe, x.start_time < x.end_time := fun x hx =>
    hnd x (hperm.mem_iff.mp hx)
  obtain ⟨h1, h2⟩ := foldl_insertCleaned_chained (segs.insertionSort startLe) []
    (by simp [chainedSegs]) (by simp) hnd2 hsort (by simp)
  refine ⟨h1, fun y hy => ?_⟩
  rcases h2 y hy with h | h
  · simp at h
  · exact hperm.mem_iff.mp h

/-- The diarization service output is chained and every member has
duration — end minus start — at least the configured minimum of one
second. -/
theorem serviceDiarize_chained (turns : List (ℚ × ℚ × String)) :
    chainedSegs (serviceDiarize turns) ∧
    ∀ y ∈ serviceDiarize turns, 1 ≤ y.end_time - y.start_time := by
  unfold serviceDiarize
  have hbase : ∀ x ∈ (turns.map fun t => SpeakerSeg.mk t.1 t.2.1 t.2.2 (t.2.1 - t.1)).filter
      (fun s => !decide (s.duration < minSegmentDuration)), 1 ≤ x.end_time - x.start_time := by
    intro x hx
    rw [List.mem_filter] at hx
    obtain ⟨hm, hp⟩ := hx
    rcases List.mem_map.mp hm with ⟨t, _, ht⟩
    have hdur : x.duration = x.end_time - x.start_time := by
      rw [← ht]
    have : ¬ x.duration < minSegmentDuration := by
      simpa using hp
    rw [hdur, minSegmentDuration] at this
    exact not_lt.mp this
  have hnd : ∀ x ∈ (turns.map fun t => SpeakerSeg.mk t.1 t.2.1 t.2.2 (t.2.1 - t.1)).filter
      (fun s => !decide (s.duration < minSegmentDuration)), x.start_time < x.end_time := by
    intro x hx
    have := hbase x hx
    linarith
  obtain ⟨h1, h2⟩ := removeOverlapping_chained _ hnd
  exact ⟨h1, fun y hy => hbase y (h2 y hy)⟩

/-- The same-speaker merge loop preserves the chain and nondegeneracy,
and every output segment starts no earlier than the carried current
segment. -/
theorem mergePassAGo_chained :
    ∀ (l : List SpeakerSeg) (current : SpeakerSeg),
      chainedSegs (current :: l) →
      (∀ x ∈ current :: l, x.start_time < x.end_time) →
      chainedSegs (mergePassAGo current l) ∧
      (∀ y ∈ mergePassAGo current l, current.start_time ≤ y.start_time) ∧
      (∀ y ∈ mergePassAGo current l, y.start_time < y.end_time) := by
  intro l
  induction l with
  | nil =>
    intro current _ hnd
    refine ⟨by simp [mergePassAGo, chainedSegs], ?_, ?_⟩
    · intro y hy
      simp only [mergePassAGo, List.mem_singleton] at hy
      exact hy ▸ le_refl _
    · intro y hy
      simp only [mergePassAGo, List.mem_singleton] at hy
      exact hy ▸ hnd current (List.mem_cons_self current _)
  | cons seg rest ih =>
    intro current hch hnd
    rw [chainedSegs, List.pairwise_cons] at hch
    have hch_seg : chainedSegs (seg :: rest) := hch.2
    have hcs : current.end_time ≤ seg.start_time :=
      hch.1 seg (List.mem_cons_self seg rest)
    have hndc : current.start_time < current.end_time :=
      hnd current (List.mem_cons_self current _)
    have hnds : seg.start_time < seg.end_time :=
      hnd seg (List.mem_cons_of_mem current (List.mem_cons_self seg rest))
    simp only [mergePassAGo]
    split
    · -- merged: keep current start, extend to the end of seg
      have hchm : chainedSegs
          (SpeakerSeg.mk current.start_time seg.end_time current.speaker_label
            (seg.end_time - current.start_time) :: rest) := by
        rw [chainedSegs, List.pairwise_cons]
        rw [chainedSegs, List.pairwise_cons] at hch_seg
        exact ⟨fun r hr => hch_seg.1 r hr, hch_seg.2⟩
      have hndm : ∀ x ∈ SpeakerSeg.mk current.start_time seg.end_time current.speaker_label
          (seg.end_time - current.start_time) :: rest, x.start_time < x.end_time := by
        intro x hx
        rcases List.mem_cons.mp hx with h | h
        · subst h
          show current.start_time < seg.end_time
          calc current.start_time < current.end_time := hndc
            _ ≤ seg.start_time := hcs
            _ < seg.end_time := hnds
        · exact hnd x (List.mem_cons_of_mem current (List.mem_cons_of_mem seg h))
      obtain ⟨ih1, ih2, ih3⟩ := ih _ hchm hndm
      exact ⟨ih1, fun y hy => ih2 y hy, ih3⟩
    · -- not merged: emit current, continue from seg
      obtain ⟨ih1, ih2, ih3⟩ := ih seg hch_seg
        (fun x hx => hnd x (List.mem_cons_of_mem current hx))
      refine ⟨?_, ?_, ?_⟩
      · rw [chainedSegs, List.pairwise_cons]
        refine ⟨fun y hy => le_trans hcs (ih2 y hy), ih1⟩
      · intro y hy
        rcases List.mem_cons.mp hy with h | h
        · exact h ▸ le_refl _
        · exact le_trans (le_of_lt hndc) (le_trans hcs (ih2 y h))
      · intro y hy
        rcases List.mem_cons.mp hy with h | h
        · exact h ▸ hndc
        · exact ih3 y h

/-- The router coalescing function preserves the chain and leaves only
segments of duration at least one second, for chained nondegenerate
input. -/
theorem mergeAdjacent_chained (segs : List SpeakerSeg)
    (hch : chainedSegs segs) (hnd : ∀ x ∈ segs, x.start_time < x.end_time) :
    chainedSegs (mergeAdjacentShortSegments segs) ∧
    ∀ y ∈ mergeAdjacentShortSegments segs, 1 ≤ y.end_time - y.start_time := by
  unfold mergeAdjacentShortSegments dropShortSegments
  cases segs with
  | nil => simp [mergePassA, chainedSegs]
  | cons s rest =>
    obtain ⟨h1, _, _⟩ := mergePassAGo_chained rest s hch hnd
    constructor
    · have hsub := List.filter_sublist
        (l := mergePassAGo s rest) (p := fun s => decide (1 ≤ s.end_time - s.start_time))
      exact List.Pairwise.sublist hsub h1
    · intro y hy
      have := List.of_mem_filter hy
      simpa using this

/-- C6 counterexample: a half-second recording whose diarization RPC
fails is processed through the single fallback segment, and the emitted
segment has duration one half, below the claimed lower bound of one
second. -/
theorem fallback_run_short_duration :
    retranscriptionSegments (1/2) ⟨false, [], 0⟩
        (fun _ => ⟨some [1], ⟨true, ['o', 'k', 'a', 'y'], 1⟩⟩)
      = [⟨0, "Speaker 1", 0, 1/2, ['o', 'k', 'a', 'y'], 1, true⟩] ∧
    (1/2 : ℚ) - 0 < 1 := by
  have hsil : isSilentSlice [1] = false := by norm_num [isSilentSlice, sumSquares]
  have hkeep : keepText ⟨true, ['o', 'k', 'a', 'y'], 1⟩ = some ['o', 'k', 'a', 'y'] := by
    simp +decide [keepText, cleanText, trimChars, stripMeta, takeMeta, isWsChar,
      punctuationOnly]
  constructor
  · simp [retranscriptionSegments, chooseSpeakerSegments, fallbackSegment,
      processSegments, processSegmentsGo, hsil, hkeep]
  · norm_num

/-- C6 (amended): in a retranscription run whose diarization result
carries the (nonempty) output of the diarization service pipeline, no
two emitted segments overlap and every emitted segment has duration at
least one second; a run that takes the fallback path emits at most one
segment — so no two segments overlap there either — but that segment
spans the whole audio and its duration can be below one second. -/
theorem retrans_output_duration_nonoverlap
    (turns : List (ℚ × ℚ × String)) (sc : ℕ) (dur : ℚ) (orc : ℕ → SegmentOracle)
    (hne : serviceDiarize turns ≠ []) :
    noTwoOverlap (retranscriptionSegments dur ⟨true, serviceDiarize turns, sc⟩ orc) ∧
    (∀ y ∈ retranscriptionSegments dur ⟨true, serviceDiarize turns, sc⟩ orc,
      1 ≤ y.end_time - y.start_time) ∧
    ∀ (b : Bool) (segs2 : List SpeakerSeg) (sc2 : ℕ),
      (retranscriptionSegments dur ⟨false, segs2, sc2⟩ orc).length ≤ 1 ∧
      (retranscriptionSegments dur ⟨b, [], sc2⟩ orc).length ≤ 1 := by
  obtain ⟨hch0, hdur0⟩ := serviceDiarize_chained turns
  have hnd0 : ∀ x ∈ serviceDiarize turns, x.start_time < x.end_time := by
    intro x hx; have := hdur0 x hx; linarith
  obtain ⟨hch, hdur⟩ := mergeAdjacent_chained (serviceDiarize turns) hch0 hnd0
  have hchoose : chooseSpeakerSegments dur ⟨true, serviceDiarize turns, sc⟩
      = mergeAdjacentShortSegments (serviceDiarize turns) := by
    simp [chooseSpeakerSegments, hne]
  have hemit : retranscriptionSegments dur ⟨true, serviceDiarize turns, sc⟩ orc
      = (List.enumFrom 0
          (keptOfSegs orc (mergeAdjacentShortSegments (serviceDiarize turns)) 0)).map
          mkTransSeg := by
    rw [retranscriptionSegments, hchoose]
    simpa [processSegments] using
      processSegmentsGo_spec orc (mergeAdjacentShortSegments (serviceDiarize turns)) 0 []
  have hkept_sub := keptOfSegs_fst_sublist orc
    (mergeAdjacentShortSegments (serviceDiarize turns)) 0
  have hkept_pw : (keptOfSegs orc (mergeAdjacentShortSegments (serviceDiarize turns)) 0).Pairwise
      fun p q => p.1.end_time ≤ q.1.start_time := by
    have := List.Pairwise.sublist hkept_sub hch
    rw [List.pairwise_map] at this
    exact this
  refine ⟨?_, ?_, ?_⟩
  · rw [hemit, noTwoOverlap, List.pairwise_map]
    have := pairwise_enumFrom_snd _ _ _ 0 hkept_pw
    exact this.imp (fun h => Or.inl h)
  · intro y hy
    rw [hemit] at hy
    rcases List.mem_map.mp hy with ⟨p, hp, hmk⟩
    have hsnd := enumFrom_snd_mem _ _ 0 p hp
    have hmem : p.2.1 ∈ (keptOfSegs orc (mergeAdjacentShortSegments (serviceDiarize turns)) 0).map
        (fun q => q.1) := List.mem_map_of_mem _ hsnd
    have := hdur p.2.1 (hkept_sub.mem hmem)
    rw [← hmk]
    exact this
  · intro b segs2 sc2
    constructor
    · have h : chooseSpeakerSegments dur ⟨false, segs2, sc2⟩ = [fallbackSegment dur] := by
        simp [chooseSpeakerSegments]
      rw [retranscriptionSegments, h]
      simp only [processSegments, processSegmentsGo]
      cases (orc 0).slice with
      | none => simp [processSegmentsGo]
      | some xs =>
        by_cases hs : isSilentSlice xs
        · simp [hs, processSegmentsGo]
        · cases keepText (orc 0).stt with
          | none => simp [hs, processSegmentsGo]
          | some c => simp [hs, processSegmentsGo]
    · have h : chooseSpeakerSegments dur ⟨b, [], sc2⟩ = [fallbackSegment dur] := by
        simp [chooseSpeakerSegments]
      rw [retranscriptionSegments, h]
      simp only [processSegments, processSegmentsGo]
      cases (orc 0).slice with
      | none => simp [processSegmentsGo]
      | some xs =>
        by_cases hs : isSilentSlice xs
        · simp [hs, processSegmentsGo]
        · cases keepText (orc 0).stt with
          | none => simp [hs, processSegmentsGo]
          | some c => simp [hs, processSegmentsGo]

/-- C6 witness: a one-turn diarization run with a concrete oracle. -/
theorem retrans_output_duration_nonoverlap_witness :
    noTwoOverlap (retranscriptionSegments 10 ⟨true, serviceDiarize [(0, 10, "S0")], 1⟩
        (fun _ => ⟨some [1], ⟨true, ['o', 'k'], 1⟩⟩)) ∧
    (∀ y ∈ retranscriptionSegments 10 ⟨true, serviceDiarize [(0, 10, "S0")], 1⟩
        (fun _ => ⟨some [1], ⟨true, ['o', 'k'], 1⟩⟩),
      1 ≤ y.end_time - y.start_time) ∧
    ∀ (b : Bool) (segs2 : List SpeakerSeg) (sc2 : ℕ),
      (retranscriptionSegments 10 ⟨false, segs2, sc2⟩
        (fun _ => ⟨some [1], ⟨true, ['o', 'k'], 1⟩⟩)).length ≤ 1 ∧
      (retranscriptionSegments 10 ⟨b, [], sc2⟩
        (fun _ => ⟨some [1], ⟨true, ['o', 'k'], 1⟩⟩)).length ≤ 1 :=
  retrans_output_duration_nonoverlap [(0, 10, "S0")] 1 10
    (fun _ => ⟨some [1], ⟨true, ['o', 'k'], 1⟩⟩)
    (by norm_num [serviceDiarize, removeOverlappingSegments, insertCleaned,
      minSegmentDuration, List.insertionSort, List.filter])

/-- C1 witness: a concrete healthy environment and session. -/
theorem finalize_sets_completed_witness :
    (finalizeSessionTask ⟨true, some 6, true, true, true⟩
        ⟨SessionStatus.recording, [⟨['o', 'k'], "Speaker 1", true⟩], [3], 0, 0, none⟩).status
      = SessionStatus.completed :=
  finalize_sets_completed ⟨true, some 6, true, true, true⟩
    ⟨SessionStatus.recording, [⟨['o', 'k'], "Speaker 1", true⟩], [3], 0, 0, none⟩
    rfl rfl rfl

end Intrascribe
